import Mathlib

/-!
Verification of the fastdb streaming SQL execution core.

The definitions below are a shallow embedding of the Rust sources:
  * `src-tauri/src/commands.rs` (`execute_sql_file`): the statement
    lexer/splitter state machine and the COPY (bulk-load) relay,
  * `src-tauri/src/postgres.rs`: `strip_leading_comments`, `quote_ident`,
    `execute_query`, `cancel_query`, `get_or_create_pool`,
    `cleanup_idle_pools`.

Strings are modelled as `List Char` (the Rust code iterates `chars()`),
network effects (the connection, the COPY sink, the execution outcomes of
`tokio_postgres` calls) are modelled by explicit result values, and the
wire traffic is recorded as a list of emitted events.
-/

namespace Fastdb

/-- Events produced by `execute_sql_file` as it scans the input stream:
a trimmed statement handed to `batch_execute`, a COPY ... FROM STDIN
statement handed to `copy_in` (which switches the lexer into bulk-load
passthrough), one data line relayed to the COPY sink (the line bytes
followed by one newline octet, as the two `send` calls in the source), and
the finalization of the COPY sink on the sentinel line. -/
inductive Emit where
  | stmt (text : List Char)
  | copyStart (text : List Char)
  | copyLine (line : List Char)
  | copyEnd
deriving DecidableEq

/-- Rust `str::trim` on a character list (drop whitespace at both ends). -/
def trimChars (l : List Char) : List Char :=
  ((l.dropWhile Char.isWhitespace).reverse.dropWhile Char.isWhitespace).reverse

/-- Rust `str::trim_end_matches('\r')`: drop every trailing carriage return. -/
def trimEndCR (l : List Char) : List Char :=
  (l.reverse.dropWhile (fun c => c = '\r')).reverse

/-- Rust `str::to_lowercase` restricted to the ASCII range used here. -/
def lowerL (l : List Char) : List Char := l.map Char.toLower

/-- Rust `str::contains(pat)` on character lists. -/
def containsSub (hay pat : List Char) : Bool :=
  match hay with
  | [] => pat.isEmpty
  | _ :: t => pat.isPrefixOf hay || containsSub t pat

/-- The bulk-load trigger test of `execute_sql_file`:
`trimmed_lower.starts_with("copy") && trimmed_lower.contains("from stdin")`. -/
def copyForm (t : List Char) : Bool :=
  "copy".toList.isPrefixOf (lowerL t) && containsSub (lowerL t) "from stdin".toList

/-- The mutable lexer state of `execute_sql_file` (commands.rs lines
444-459), plus the growing event trace and two ghost counters used only to
state the spec's counting property: `topSemis` counts every `;` dispatched
in normal mode, `neSemis` counts those whose accumulated trimmed text was
non-empty.  `dollarCand` holds the growing tag name of a dollar-quote
candidate, `dollarTag` the full `$tag$` delimiter of an open dollar quote. -/
structure S where
  statement : List Char
  inCopy : Bool
  copyBuf : List Char
  inSingle : Bool
  inDouble : Bool
  pendSingle : Bool
  pendDouble : Bool
  inLine : Bool
  inBlock : Bool
  blockPrev : Option Char
  dollarTag : Option (List Char)
  dollarCand : Option (List Char)
  events : List Emit
  topSemis : Nat
  neSemis : Nat
deriving DecidableEq

/-- The initial lexer state of `execute_sql_file`. -/
def initS : S :=
  { statement := [], inCopy := false, copyBuf := [], inSingle := false,
    inDouble := false, pendSingle := false, pendDouble := false,
    inLine := false, inBlock := false, blockPrev := none,
    dollarTag := none, dollarCand := none, events := [], topSemis := 0,
    neSemis := 0 }

/-- The bulk-load passthrough branch of `execute_sql_file` (commands.rs
lines 481-512): accumulate a line buffer; on newline, strip trailing
carriage returns, finalize the sink on the sentinel, drop blank lines,
and relay every other line followed by a newline octet. -/
def copyStep (s : S) (c : Char) : S :=
  if c = '\n' then
    let line := trimEndCR s.copyBuf
    if line = ['\\', '.'] then
      { s with inCopy := false, copyBuf := [], events := s.events ++ [Emit.copyEnd] }
    else if (trimChars line).isEmpty then
      { s with copyBuf := [] }
    else
      { s with copyBuf := [], events := s.events ++ [Emit.copyLine line] }
  else
    { s with copyBuf := s.copyBuf ++ [c] }

/-- Normal-mode character dispatch of `execute_sql_file` (commands.rs lines
595-658), reached when no quoting/comment/dollar mode is active.  The
returned boolean reports whether the peeked character was consumed by the
`--` / `/*` two-character lookahead. -/
def normalStep (s : S) (c : Char) (peek : Option Char) : S × Bool :=
  if c = '-' ∧ peek = some '-' then
    ({ s with inLine := true }, true)
  else if c = '/' ∧ peek = some '*' then
    ({ s with inBlock := true, blockPrev := some '*' }, true)
  else if c = '$' then
    ({ s with statement := s.statement ++ [c], dollarCand := some [] }, false)
  else if c = '\'' then
    ({ s with statement := s.statement ++ [c], inSingle := true }, false)
  else if c = '"' then
    ({ s with statement := s.statement ++ [c], inDouble := true }, false)
  else if c = ';' then
    let t := trimChars s.statement
    if t = [] then
      ({ s with statement := [], topSemis := s.topSemis + 1 }, false)
    else if copyForm t then
      ({ s with statement := [], inCopy := true,
                events := s.events ++ [Emit.copyStart t],
                topSemis := s.topSemis + 1, neSemis := s.neSemis + 1 }, false)
    else
      ({ s with statement := [],
                events := s.events ++ [Emit.stmt t],
                topSemis := s.topSemis + 1, neSemis := s.neSemis + 1 }, false)
  else
    ({ s with statement := s.statement ++ [c] }, false)

/-- Mode dispatch after the `pending quote` checks (commands.rs lines
541-593): line comment, block comment, open dollar quote, dollar-quote
candidate, single quote, double quote, otherwise normal mode. -/
def stepNoPend (s : S) (c : Char) (peek : Option Char) : S × Bool :=
  if s.inLine then
    (if c = '\n' then { s with inLine := false } else s, false)
  else if s.inBlock then
    (if s.blockPrev = some '*' ∧ c = '/' then
       { s with inBlock := false, blockPrev := none }
     else { s with blockPrev := some c }, false)
  else
    match s.dollarTag with
    | some tag =>
        let st := s.statement ++ [c]
        (if c = '$' ∧ tag.isSuffixOf st then
           { s with statement := st, dollarTag := none }
         else { s with statement := st }, false)
    | none =>
      match s.dollarCand with
      | some cand =>
          let st := s.statement ++ [c]
          (if c = '$' then
             { s with statement := st, dollarCand := none,
                      dollarTag := some ('$' :: (cand ++ ['$'])) }
           else if c.isAlphanum ∨ c = '_' then
             { s with statement := st, dollarCand := some (cand ++ [c]) }
           else
             { s with statement := st, dollarCand := none }, false)
      | none =>
        if s.inSingle then
          ({ s with statement := s.statement ++ [c],
                    pendSingle := if c = '\'' then true else s.pendSingle }, false)
        else if s.inDouble then
          ({ s with statement := s.statement ++ [c],
                    pendDouble := if c = '"' then true else s.pendDouble }, false)
        else
          normalStep s c peek

/-- The `pending_double_quote_end` check (commands.rs lines 528-539): a
second `"` is an escaped quote kept in the buffer; anything else closes
the double-quote mode and the character is reprocessed. -/
def stepP2 (s : S) (c : Char) (peek : Option Char) : S × Bool :=
  if s.pendDouble then
    if c = '"' then
      ({ s with statement := s.statement ++ [c], pendDouble := false }, false)
    else
      stepNoPend { s with inDouble := false, pendDouble := false } c peek
  else stepNoPend s c peek

/-- One full character step of `execute_sql_file`'s inner loop (commands.rs
lines 474-659): bulk-load passthrough first, then the
`pending_single_quote_end` check (a second `'` is an escaped quote;
anything else closes the single-quote mode and reprocesses), then the
remaining mode dispatch. -/
def step (s : S) (c : Char) (peek : Option Char) : S × Bool :=
  if s.inCopy then (copyStep s c, false)
  else if s.pendSingle then
    if c = '\'' then
      ({ s with statement := s.statement ++ [c], pendSingle := false }, false)
    else
      stepP2 { s with inSingle := false, pendSingle := false } c peek
  else stepP2 s c peek

/-- Run the lexer over a character stream, feeding each character together
with the next one as lookahead; when the lookahead was consumed (the `--`
and `/*` cases) the next character is skipped. -/
def runFrom : S → List Char → S
  | s, [] => s
  | s, [c] => (step s c none).1
  | s, c :: d :: rest =>
      match step s c (some d) with
      | (s', true) => runFrom s' rest
      | (s', false) => runFrom s' (d :: rest)

/-- End-of-stream handling of `execute_sql_file` (commands.rs lines
663-702): a pending bulk-load line buffer holding exactly the sentinel
finalizes the sink; a still-open bulk-load mode is a fatal error; a
non-empty trailing statement is executed unless it is a bulk-load form
missing its data section. -/
def finishRun (s : S) : Except String (List Emit) :=
  let s1 := if s.inCopy ∧ s.copyBuf ≠ [] ∧ trimEndCR s.copyBuf = ['\\', '.'] then
              { s with inCopy := false, events := s.events ++ [Emit.copyEnd] }
            else s
  if s1.inCopy then Except.error "COPY data did not terminate"
  else
    let t := trimChars s1.statement
    if t = [] then Except.ok s1.events
    else if copyForm t then Except.error "COPY statement missing data section"
    else Except.ok (s1.events ++ [Emit.stmt t])

/-- The whole statement-splitting pass of `execute_sql_file` over an input
stream, returning the ordered event trace or the fatal lexing error. -/
def execFile (input : List Char) : Except String (List Emit) :=
  finishRun (runFrom initS input)

/-- Number of ordinary statements handed to `batch_execute` in a trace. -/
def stmtCount (evs : List Emit) : Nat :=
  (evs.filter fun e => match e with | Emit.stmt _ => true | _ => false).length

/-- Suffix after the first occurrence of a character (Rust
`str::find(c)` followed by slicing past it), `none` when absent. -/
def dropAfterChar : List Char → Char → Option (List Char)
  | [], _ => none
  | c :: t, d => if c = d then some t else dropAfterChar t d

/-- Suffix after the first occurrence of the two-character block-comment
terminator (Rust `str::find(pat)` for the closing marker followed by
slicing past it), `none` when absent. -/
def dropAfterBlockEnd : List Char → Option (List Char)
  | [] => none
  | c :: t =>
      if c = '*' ∧ t.head? = some '/' then some t.tail
      else dropAfterBlockEnd t

/-- Fuel-driven loop body of `strip_leading_comments`.  Each pass of the
Rust loop removes at least one character before iterating (a line comment
consumes through its newline, a block comment through its terminator), so
`length + 1` units of fuel always suffice and the out-of-fuel branch is
unreachable. -/
def stripLeadingCommentsGo : Nat → List Char → List Char
  | 0, _ => []
  | fuel + 1, l =>
      let t := l.dropWhile Char.isWhitespace
      if t.take 2 = ['-', '-'] then
        match dropAfterChar t '\n' with
        | some r => stripLeadingCommentsGo fuel r
        | none => []
      else if t.take 2 = ['/', '*'] then
        match dropAfterBlockEnd t with
        | some r => stripLeadingCommentsGo fuel r
        | none => []
      else t

/-- Model of `strip_leading_comments` from postgres.rs (lines 56-78): repeatedly
drop leading whitespace, then a leading line comment through its newline
or a leading block comment through its terminator; an unterminated leading
comment yields the empty text. -/
def stripLeadingComments (l : List Char) : List Char :=
  stripLeadingCommentsGo (l.length + 1) l

/-- The read-vs-write classification of `execute_query` (postgres.rs lines
107-108): strip leading comments, lowercase, and test the four read-only
leading keywords. -/
def isQueryStmt (sql : List Char) : Bool :=
  let t := lowerL (stripLeadingComments sql)
  "select".toList.isPrefixOf t || "with".toList.isPrefixOf t ||
    "show".toList.isPrefixOf t || "explain".toList.isPrefixOf t

/-- Escaping core of `quote_ident` from postgres.rs (lines 52-54): wrap in double quotes,
doubling every embedded double quote. -/
def escapeQuotes : List Char → List Char
  | [] => []
  | c :: t => if c = '"' then '"' :: '"' :: escapeQuotes t else c :: escapeQuotes t

/-- Model of `quote_ident` itself: a double quote, the escaped identifier,
a closing double quote. -/
def quote_ident (s : List Char) : List Char :=
  '"' :: (escapeQuotes s ++ ['"'])

/-- Collapse each doubled double-quote back to a single one (the inverse
direction of the escaping, used to state the round-trip property). -/
def collapseQuotes : List Char → List Char
  | [] => []
  | [c] => [c]
  | c :: d :: t =>
      if c = '"' ∧ d = '"' then '"' :: collapseQuotes t
      else c :: collapseQuotes (d :: t)

/-- Scan the inside of a PostgreSQL double-quoted identifier with the
quote-doubling rule: starting just after the opening `"`, accumulate
content, treat `""` as an escaped quote, and stop at the closing `"`,
returning the decoded content and the remaining input; `none` when the
input ends before the identifier closes. -/
def scanDQ (acc : List Char) : List Char → Option (List Char × List Char)
  | [] => none
  | [c] => if c = '"' then some (acc, []) else none
  | c :: d :: t =>
      if c = '"' then
        if d = '"' then scanDQ (acc ++ ['"']) t
        else some (acc, d :: t)
      else scanDQ (acc ++ [c]) (d :: t)

/-- Result shape of `execute_query` (postgres.rs lines 47-50): either an
ordered row sequence or a single affected-row count. -/
inductive QueryExecutionResult (ρ : Type) where
  | rows (r : List ρ)
  | affected (n : Nat)
deriving DecidableEq

/-- Association-list registry with the lookup/insert/remove semantics of
the `HashMap`s guarding `POOLS` and `CANCEL_TOKENS` (each operation is
performed under the registry's mutex, hence atomically). -/
def lookupA {α : Type} : List (String × α) → String → Option α
  | [], _ => none
  | (k, v) :: t, id => if k = id then some v else lookupA t id

/-- Remove a key from the registry (`HashMap::remove`). -/
def eraseA {α : Type} (m : List (String × α)) (id : String) : List (String × α) :=
  m.filter (fun p => decide (p.1 ≠ id))

/-- Insert or replace a key in the registry (`HashMap::insert`). -/
def insertA {α : Type} (m : List (String × α)) (id : String) (v : α) :
    List (String × α) :=
  (id, v) :: eraseA m id

/-- Outcomes of the `tokio_postgres` calls `execute_query` makes for one
given statement on one checked-out client: `transaction()`, the
`SET LOCAL search_path` `batch_execute`, `query`, `execute`, `commit`,
plus the client's cancellation token value. -/
structure DbConn (ρ : Type) where
  txBeginRes : Except String Unit
  setPathRes : Except String Unit
  queryRes : Except String (List ρ)
  execRes : Except String Nat
  commitRes : Except String Unit
  token : Nat

/-- The statement-execution core of `execute_query` (postgres.rs lines
107-130): classify the statement, and run it — inside a transaction that
first sets the schema-scoped search path when a schema is given —
propagating the first failing call's error as the `?` operator does. -/
def runStatement {ρ : Type} (conn : DbConn ρ) (sql : List Char)
    (schema : Option (List Char)) : Except String (QueryExecutionResult ρ) :=
  match schema with
  | some _ =>
      match conn.txBeginRes with
      | Except.error e => Except.error e
      | Except.ok _ =>
        match conn.setPathRes with
        | Except.error e => Except.error e
        | Except.ok _ =>
          if isQueryStmt sql then
            match conn.queryRes with
            | Except.error e => Except.error e
            | Except.ok rows =>
              match conn.commitRes with
              | Except.error e => Except.error e
              | Except.ok _ => Except.ok (QueryExecutionResult.rows rows)
          else
            match conn.execRes with
            | Except.error e => Except.error e
            | Except.ok n =>
              match conn.commitRes with
              | Except.error e => Except.error e
              | Except.ok _ => Except.ok (QueryExecutionResult.affected n)
  | none =>
      if isQueryStmt sql then
        match conn.queryRes with
        | Except.error e => Except.error e
        | Except.ok rows => Except.ok (QueryExecutionResult.rows rows)
      else
        match conn.execRes with
        | Except.error e => Except.error e
        | Except.ok n => Except.ok (QueryExecutionResult.affected n)

/-- The body of `execute_query` (postgres.rs lines 80-138) after the pool
has been acquired: register the cancellation token under the supplied
query id, run the statement, and remove the token; the `?` early return on
failure skips the removal, exactly as in the source.  Returns the result
and the final token registry. -/
def executeQueryModel {ρ : Type} (tokens : List (String × Nat)) (conn : DbConn ρ)
    (sql : List Char) (queryId : Option String) (schema : Option (List Char)) :
    Except String (QueryExecutionResult ρ) × List (String × Nat) :=
  let tokens1 := match queryId with
    | some id => insertA tokens id conn.token
    | none => tokens
  match runStatement conn sql schema with
  | Except.ok v =>
      (Except.ok v,
       match queryId with
       | some id => eraseA tokens1 id
       | none => tokens1)
  | Except.error e => (Except.error e, tokens1)

/-- Model of `cancel_query` (postgres.rs lines 140-153): look the id up in the
token registry; a registered token is cancelled over a fresh connection
(modelled as succeeding), an unknown id is the recoverable error. -/
def cancelQueryModel (tokens : List (String × Nat)) (id : String) :
    Except String Unit :=
  match lookupA tokens id with
  | some _ => Except.ok ()
  | none => Except.error "No running query for this id"

/-- One atomic `get_or_create_pool` call (postgres.rs lines 14-45): the
whole lookup/construct/insert runs while holding the `POOLS` mutex.
Returns the pool handed to the caller, whether a new pool was constructed,
and the updated registry; `fresh` stands for the pool the call would
construct. -/
def getOrCreatePool (pools : List (String × Nat)) (id : String) (fresh : Nat) :
    Nat × Bool × List (String × Nat) :=
  match lookupA pools id with
  | some p => (p, false, pools)
  | none => (fresh, true, insertA pools id fresh)

/-- A serialized trace of concurrent `get_or_create_pool` calls (the mutex
makes each call atomic, so any concurrent execution is some such
serialization).  Each call is `(server id, pool it would construct)`; each
event records `(server id, pool returned, constructed?)`. -/
def runPoolCalls (pools : List (String × Nat)) :
    List (String × Nat) → List (String × Nat × Bool) × List (String × Nat)
  | [] => ([], pools)
  | (id, fresh) :: rest =>
      ((id, (getOrCreatePool pools id fresh).1,
          (getOrCreatePool pools id fresh).2.1) ::
         (runPoolCalls (getOrCreatePool pools id fresh).2.2 rest).1,
       (runPoolCalls (getOrCreatePool pools id fresh).2.2 rest).2)

/-- Number of pool constructions for a given server identity in a trace. -/
def countCreated (id : String) (evs : List (String × Nat × Bool)) : Nat :=
  (evs.filter fun ev => ev.1 == id && ev.2.2).length

/-- The `deadpool` pool status triple read by the sweep: current number of
connections, number of idle (checked-in) connections, configured maximum. -/
structure PoolStatus where
  size : Nat
  available : Nat
  maxSize : Nat
deriving DecidableEq

/-- Physically meaningful statuses: idle connections are a subset of the
current connections, which never exceed the configured maximum. -/
def wfStatus (st : PoolStatus) : Prop :=
  st.available ≤ st.size ∧ st.size ≤ st.maxSize

/-- A pool with every connection checked in and none outstanding. -/
def fullyIdle (st : PoolStatus) : Prop := st.available = st.size

/-- A pool with at least one connection checked out. -/
def inUsePool (st : PoolStatus) : Prop := st.available < st.size

/-- The retention test of `cleanup_idle_pools` (postgres.rs lines 155-161):
`status.size > 0 && status.available < status.max_size`. -/
def retainPool (st : PoolStatus) : Bool :=
  decide (0 < st.size) && decide (st.available < st.maxSize)

/-- Model of `cleanup_idle_pools`: drop every registered pool failing the retention
test. -/
def cleanupIdlePools (pools : List (String × PoolStatus)) :
    List (String × PoolStatus) :=
  pools.filter (fun e => retainPool e.2)

theorem scanDQ_escape (s : List Char) : ∀ acc : List Char,
    scanDQ acc (escapeQuotes s ++ ['"']) = some (acc ++ s, []) := by
  induction s with
  | nil => intro acc; simp [escapeQuotes, scanDQ]
  | cons c s' ih =>
      intro acc
      by_cases hc : c = '"'
      · subst hc
        rw [show escapeQuotes ('"' :: s') = '"' :: '"' :: escapeQuotes s' by
          simp [escapeQuotes]]
        rw [List.cons_append, List.cons_append]
        rw [show scanDQ acc ('"' :: '"' :: (escapeQuotes s' ++ ['"'])) =
              scanDQ (acc ++ ['"']) (escapeQuotes s' ++ ['"']) by simp [scanDQ]]
        rw [ih]
        simp
      · rw [show escapeQuotes (c :: s') = c :: escapeQuotes s' by
          simp [escapeQuotes, hc]]
        rw [List.cons_append]
        cases he : escapeQuotes s' ++ ['"'] with
        | nil => simp at he
        | cons d t =>
            rw [show scanDQ acc (c :: d :: t) = scanDQ (acc ++ [c]) (d :: t) by
              simp [scanDQ, hc]]
            rw [← he, ih]
            simp

theorem collapse_escape (s : List Char) : collapseQuotes (escapeQuotes s) = s := by
  induction s with
  | nil => rfl
  | cons c s' ih =>
      by_cases hc : c = '"'
      · subst hc
        rw [show escapeQuotes ('"' :: s') = '"' :: '"' :: escapeQuotes s' by
          simp [escapeQuotes]]
        rw [show collapseQuotes ('"' :: '"' :: escapeQuotes s') =
              '"' :: collapseQuotes (escapeQuotes s') by simp [collapseQuotes]]
        rw [ih]
      · cases he : escapeQuotes s' with
        | nil =>
            have hs : s' = [] := by
              cases s' with
              | nil => rfl
              | cons d t =>
                  simp only [escapeQuotes] at he
                  split at he <;> simp at he
            subst hs
            rw [show escapeQuotes [c] = [c] by simp [escapeQuotes, hc]]
            rfl
        | cons d t =>
            rw [show escapeQuotes (c :: s') = c :: escapeQuotes s' by
              simp [escapeQuotes, hc]]
            rw [he]
            rw [show collapseQuotes (c :: d :: t) = c :: collapseQuotes (d :: t) by
              simp [collapseQuotes, hc]]
            rw [← he, ih]

theorem quote_ident_unquote (s : List Char) :
    collapseQuotes (((quote_ident s).drop 1).dropLast) = s := by
  have h1 : ((quote_ident s).drop 1).dropLast = escapeQuotes s := by
    simp [quote_ident]
  rw [h1, collapse_escape]

/-- C10: `quote_ident` wraps its argument in double quotes with every
embedded double quote doubled: scanning the produced text with the
PostgreSQL quote-doubling rule yields exactly one quoted identifier whose
content is the original string and which consumes the whole text (so the
schema name embedded in the `SET LOCAL search_path TO` statement cannot
terminate the quoting early); stripping the outer quotes and collapsing
doubled quotes recovers the input (round-trip), and the mapping is
injective. -/
theorem quote_ident_correct (s : List Char) :
    scanDQ [] ((quote_ident s).drop 1) = some (s, []) ∧
    collapseQuotes (((quote_ident s).drop 1).dropLast) = s ∧
    ∀ s' : List Char, quote_ident s = quote_ident s' → s = s' := by
  refine ⟨?_, quote_ident_unquote s, ?_⟩
  · have := scanDQ_escape s []
    simpa [quote_ident] using this
  · intro s' h
    have h2 : collapseQuotes (((quote_ident s).drop 1).dropLast) =
        collapseQuotes (((quote_ident s').drop 1).dropLast) :=
      congrArg (fun l : List Char => collapseQuotes ((l.drop 1).dropLast)) h
    rw [quote_ident_unquote s, quote_ident_unquote s'] at h2
    exact h2

/-- Witness for C10 at a concrete identifier containing an embedded quote
(and the injectivity hypothesis discharged at a concrete pair). -/
theorem quote_ident_correct_wit :
    scanDQ [] ((quote_ident ['a', '"', 'b']).drop 1) = some (['a', '"', 'b'], []) ∧
    (['x'] : List Char) = ['x'] :=
  ⟨(quote_ident_correct ['a', '"', 'b']).1, (quote_ident_correct ['x']).2.2 ['x'] rfl⟩

theorem lookupA_eraseA_ne {α : Type} (m : List (String × α)) (id id' : String)
    (h : id ≠ id') : lookupA (eraseA m id) id' = lookupA m id' := by
  induction m with
  | nil => rfl
  | cons p t ih =>
      by_cases hk : p.1 = id
      · have : decide (p.1 ≠ id) = false := by simp [hk]
        simp only [eraseA, List.filter] at ih ⊢
        rw [this]
        have hne : ¬p.1 = id' := by rw [hk]; exact h
        simp only [lookupA, if_neg hne]
        exact ih
      · have : decide (p.1 ≠ id) = true := by simp [hk]
        simp only [eraseA, List.filter] at ih ⊢
        rw [this]
        simp only [lookupA]
        split
        · rfl
        · exact ih

theorem lookupA_insertA_self {α : Type} (m : List (String × α)) (id : String)
    (v : α) : lookupA (insertA m id v) id = some v := by
  simp [insertA, lookupA]

theorem lookupA_insertA_ne {α : Type} (m : List (String × α)) (id id' : String)
    (v : α) (h : id ≠ id') : lookupA (insertA m id v) id' = lookupA m id' := by
  simp only [insertA, lookupA, if_neg h]
  exact lookupA_eraseA_ne m id id' h

theorem getOrCreate_preserve {pools : List (String × Nat)} {id : String} {p : Nat}
    (cid : String) (fresh : Nat) (h : lookupA pools id = some p) :
    lookupA (getOrCreatePool pools cid fresh).2.2 id = some p := by
  unfold getOrCreatePool
  cases hl : lookupA pools cid with
  | some q => simpa using h
  | none =>
      simp only
      by_cases he : cid = id
      · subst he; rw [hl] at h; cases h
      · rw [lookupA_insertA_ne pools cid id fresh he]; exact h

theorem runPool_preserve (calls : List (String × Nat)) :
    ∀ (pools : List (String × Nat)) (id : String) (p : Nat),
    lookupA pools id = some p →
    lookupA (runPoolCalls pools calls).2 id = some p := by
  induction calls with
  | nil => intro pools id p h; exact h
  | cons call rest ih =>
      intro pools id p h
      obtain ⟨cid, fresh⟩ := call
      simp only [runPoolCalls]
      exact ih _ id p (getOrCreate_preserve cid fresh h)

theorem getOrCreate_registers (pools : List (String × Nat)) (cid : String)
    (fresh : Nat) :
    lookupA (getOrCreatePool pools cid fresh).2.2 cid =
      some (getOrCreatePool pools cid fresh).1 := by
  unfold getOrCreatePool
  cases hl : lookupA pools cid with
  | some q => simpa using hl
  | none => simp [lookupA_insertA_self]

theorem getOrCreate_other (pools : List (String × Nat)) (cid id : String)
    (fresh : Nat) (h : cid ≠ id) :
    lookupA (getOrCreatePool pools cid fresh).2.2 id = lookupA pools id := by
  unfold getOrCreatePool
  cases hl : lookupA pools cid with
  | some q => simp
  | none => exact lookupA_insertA_ne pools cid id fresh h

theorem runPool_registered (calls : List (String × Nat)) :
    ∀ (pools : List (String × Nat)) (id : String),
    ∀ ev ∈ (runPoolCalls pools calls).1, ev.1 = id →
      lookupA (runPoolCalls pools calls).2 id = some ev.2.1 := by
  induction calls with
  | nil => intro pools id ev hev; simp [runPoolCalls] at hev
  | cons call rest ih =>
      intro pools id ev hev hid
      obtain ⟨cid, fresh⟩ := call
      simp only [runPoolCalls, List.mem_cons] at hev ⊢
      rcases hev with hev | hev
      · have hcid : cid = id := by rw [hev] at hid; exact hid
        subst hcid
        have h21 : ev.2.1 = (getOrCreatePool pools cid fresh).1 := by rw [hev]
        rw [h21]
        exact runPool_preserve rest _ _ _ (getOrCreate_registers pools cid fresh)
      · exact ih _ id ev hev hid

theorem countCreated_cons (id : String) (ev : String × Nat × Bool)
    (evs : List (String × Nat × Bool)) :
    countCreated id (ev :: evs) =
      (if ev.1 == id && ev.2.2 then 1 else 0) + countCreated id evs := by
  simp only [countCreated, List.filter]
  split <;> rename_i hf <;> (simp [hf]; try omega)

theorem runPool_created_bound (calls : List (String × Nat)) :
    ∀ (pools : List (String × Nat)) (id : String),
    countCreated id (runPoolCalls pools calls).1 ≤
      (if (lookupA pools id).isSome then 0 else 1) := by
  induction calls with
  | nil =>
      intro pools id
      simp only [runPoolCalls, countCreated, List.filter_nil, List.length_nil]
      split <;> omega
  | cons call rest ih =>
      intro pools id
      obtain ⟨cid, fresh⟩ := call
      simp only [runPoolCalls]
      rw [countCreated_cons]
      by_cases hcid : cid = id
      · subst hcid
        cases hl : lookupA pools cid with
        | some p =>
            have hg : getOrCreatePool pools cid fresh = (p, false, pools) := by
              simp [getOrCreatePool, hl]
            rw [hg]
            have hrec := ih pools cid
            rw [hl] at hrec
            simp only [Option.isSome_some, if_true] at hrec
            simp [hl]
            omega
        | none =>
            have hg : getOrCreatePool pools cid fresh =
                (fresh, true, insertA pools cid fresh) := by
              simp [getOrCreatePool, hl]
            rw [hg]
            have hrec := ih (insertA pools cid fresh) cid
            rw [lookupA_insertA_self pools cid fresh] at hrec
            simp only [Option.isSome_some, if_true] at hrec
            simp [hl]
            omega
      · have hrec := ih (getOrCreatePool pools cid fresh).2.2 id
        rw [getOrCreate_other pools cid id fresh hcid] at hrec
        simp only [Bool.and_eq_true, beq_iff_eq]
        rw [if_neg (fun hand => hcid hand.1)]
        simpa using hrec

theorem runPool_reuse (calls : List (String × Nat)) :
    ∀ (pools : List (String × Nat)) (id : String) (p : Nat),
    lookupA pools id = some p →
    ∀ ev ∈ (runPoolCalls pools calls).1, ev.1 = id →
      ev.2.1 = p ∧ ev.2.2 = false := by
  induction calls with
  | nil => intro pools id p h ev hev; simp [runPoolCalls] at hev
  | cons call rest ih =>
      intro pools id p h ev hev hid
      obtain ⟨cid, fresh⟩ := call
      simp only [runPoolCalls, List.mem_cons] at hev
      rcases hev with hev | hev
      · have hcid : cid = id := by rw [hev] at hid; exact hid
        subst hcid
        have hg : getOrCreatePool pools cid fresh = (p, false, pools) := by
          simp [getOrCreatePool, h]
        constructor
        · rw [hev, hg]
        · rw [hev, hg]
      · exact ih _ id p (getOrCreate_preserve cid fresh h) ev hev hid

/-- C8: under any serialized interleaving of `get_or_create_pool` calls
(each call is atomic because the whole lookup/insert runs under the
`POOLS` mutex), every caller that asks for a given server identity is
handed the pool registered for that identity at the end of the trace, at
most one pool is ever constructed for an identity not yet registered (and
none for an already-registered one), and every call for an
already-registered identity returns the registered pool without
constructing a new one. -/
theorem pool_single_instance (pools : List (String × Nat))
    (calls : List (String × Nat)) (id : String) :
    (∀ ev ∈ (runPoolCalls pools calls).1, ev.1 = id →
        lookupA (runPoolCalls pools calls).2 id = some ev.2.1) ∧
    countCreated id (runPoolCalls pools calls).1 ≤
      (if (lookupA pools id).isSome then 0 else 1) ∧
    (∀ p, lookupA pools id = some p →
        ∀ ev ∈ (runPoolCalls pools calls).1, ev.1 = id →
          ev.2.1 = p ∧ ev.2.2 = false) :=
  ⟨fun ev hev hid => runPool_registered calls pools id ev hev hid,
   runPool_created_bound calls pools id,
   fun p hp ev hev hid => runPool_reuse calls pools id p hp ev hev hid⟩

/-- Witness for C8: a trace of three calls for identity `"a"` (the second
with a different would-be pool) and one for `"b"`, starting from an empty
registry: both `"a"` callers observe the pool registered at the end, and
at most one construction happens for `"a"`. -/
theorem pool_single_instance_wit :
    lookupA (runPoolCalls [] [("a", 1), ("a", 2), ("b", 3)]).2 "a" = some 1 ∧
    countCreated "a" (runPoolCalls [] [("a", 1), ("a", 2), ("b", 3)]).1 ≤ 1 ∧
    (("a", 2, false) : String × Nat × Bool).2.1 = 2 := by
  refine ⟨?_, ?_, rfl⟩
  · exact (pool_single_instance [] [("a", 1), ("a", 2), ("b", 3)] "a").1
      ("a", 1, true) (by decide) rfl
  · have h := (pool_single_instance [] [("a", 1), ("a", 2), ("b", 3)] "a").2.1
    simpa using h

/-- The lexer is inside one of the five protected regions of the spec:
a line comment, a block comment, an open dollar-quoted body, a
single-quoted string, or a double-quoted identifier — each with the flags
that make the corresponding dispatch branch the active one. -/
def inQuoteOrComment (s : S) : Prop :=
  s.inCopy = false ∧ s.pendSingle = false ∧ s.pendDouble = false ∧
  (s.inLine = true ∨
   (s.inLine = false ∧ s.inBlock = true) ∨
   (s.inLine = false ∧ s.inBlock = false ∧ ∃ tag, s.dollarTag = some tag) ∨
   (s.inLine = false ∧ s.inBlock = false ∧ s.dollarTag = none ∧
      s.dollarCand = none ∧ s.inSingle = true) ∨
   (s.inLine = false ∧ s.inBlock = false ∧ s.dollarTag = none ∧
      s.dollarCand = none ∧ s.inSingle = false ∧ s.inDouble = true))

/-- C2: a `;` read while the lexer is inside a single-quoted string, a
double-quoted identifier, a line comment, a block comment, or a
dollar-quoted body never ends a statement: no event is emitted (nothing is
handed to execution) and the pending statement buffer is only preserved or
extended, never cleared. -/
theorem semicolon_never_splits (s : S) (p : Option Char)
    (h : inQuoteOrComment s) :
    (step s ';' p).1.events = s.events ∧
    ∃ t, (step s ';' p).1.statement = s.statement ++ t := by
  obtain ⟨hc, hps, hpd, hm⟩ := h
  rcases hm with hl | ⟨hl, hb⟩ | ⟨hl, hb, tag, ht⟩ | ⟨hl, hb, ht, hcand, hs⟩ |
    ⟨hl, hb, ht, hcand, hs, hd⟩
  · exact ⟨by simp [step, stepP2, stepNoPend, hc, hps, hpd, hl],
      ⟨[], by simp [step, stepP2, stepNoPend, hc, hps, hpd, hl]⟩⟩
  · exact ⟨by simp [step, stepP2, stepNoPend, hc, hps, hpd, hl, hb],
      ⟨[], by simp [step, stepP2, stepNoPend, hc, hps, hpd, hl, hb]⟩⟩
  · exact ⟨by simp [step, stepP2, stepNoPend, hc, hps, hpd, hl, hb, ht],
      ⟨[';'], by simp [step, stepP2, stepNoPend, hc, hps, hpd, hl, hb, ht]⟩⟩
  · exact ⟨by simp [step, stepP2, stepNoPend, hc, hps, hpd, hl, hb, ht, hcand, hs],
      ⟨[';'],
        by simp [step, stepP2, stepNoPend, hc, hps, hpd, hl, hb, ht, hcand, hs]⟩⟩
  · exact ⟨by simp [step, stepP2, stepNoPend, hc, hps, hpd, hl, hb, ht, hcand,
        hs, hd],
      ⟨[';'], by simp [step, stepP2, stepNoPend, hc, hps, hpd, hl, hb, ht,
        hcand, hs, hd]⟩⟩

/-- Witness for C2: inside an open single-quoted string (the state reached
after reading `'`), a `;` emits nothing and is appended to the buffer. -/
theorem semicolon_never_splits_wit :
    (step { initS with statement := ['\''], inSingle := true } ';' none).1.events =
      ({ initS with statement := ['\''], inSingle := true } : S).events ∧
    ∃ t, (step { initS with statement := ['\''], inSingle := true } ';'
        none).1.statement =
      ({ initS with statement := ['\''], inSingle := true } : S).statement ++ t :=
  semicolon_never_splits { initS with statement := ['\''], inSingle := true }
    none ⟨rfl, rfl, rfl,
      Or.inr (Or.inr (Or.inr (Or.inl ⟨rfl, rfl, rfl, rfl, rfl⟩)))⟩

theorem stepNoPend_inSingle (s : S) (c : Char) (p : Option Char)
    (h : s.inSingle = false) (hc : c ≠ '\'') :
    (stepNoPend s c p).1.inSingle = false := by
  unfold stepNoPend
  split
  · split <;> simp [h]
  · split
    · split <;> simp [h]
    · split
      · dsimp only
        split <;> simp [h]
      · split
        · dsimp only
          repeat' split
          all_goals simp [h]
        · split
          · simp_all
          · split
            · simp [h]
            · unfold normalStep
              dsimp only
              repeat' split
              all_goals simp_all

theorem stepP2_inSingle (s : S) (c : Char) (p : Option Char)
    (h : s.inSingle = false) (hc : c ≠ '\'') :
    (stepP2 s c p).1.inSingle = false := by
  unfold stepP2
  split
  · split
    · simpa using h
    · exact stepNoPend_inSingle _ c p (by simpa using h) hc
  · exact stepNoPend_inSingle _ c p h hc

theorem stepNoPend_inDouble (s : S) (c : Char) (p : Option Char)
    (h : s.inDouble = false) (hc : c ≠ '"') :
    (stepNoPend s c p).1.inDouble = false := by
  unfold stepNoPend
  split
  · split <;> simp [h]
  · split
    · split <;> simp [h]
    · split
      · dsimp only
        split <;> simp [h]
      · split
        · dsimp only
          repeat' split
          all_goals simp [h]
        · split
          · simp [h]
          · split
            · simp_all
            · unfold normalStep
              dsimp only
              repeat' split
              all_goals simp_all

/-- C5: inside an open quoted region, a quote character followed by
another quote of the same kind is an escaped quote: the lexer stays in
the same quoted mode and both characters are kept in the statement text
(the first was pushed when it set the pending flag, the second is pushed
here); a quote character not followed by another one closes the mode and
the following character is reprocessed in the surrounding mode. -/
theorem doubled_quote_escapes (s : S) (c : Char) (p : Option Char) :
    (s.inCopy = false → s.pendSingle = true →
      step s '\'' p =
        ({ s with statement := s.statement ++ ['\''], pendSingle := false },
          false)) ∧
    (s.inCopy = false → s.pendSingle = true → c ≠ '\'' →
      step s c p = stepP2 { s with inSingle := false, pendSingle := false } c p ∧
        (step s c p).1.inSingle = false) ∧
    (s.inCopy = false → s.pendSingle = false → s.pendDouble = true →
      step s '"' p =
        ({ s with statement := s.statement ++ ['"'], pendDouble := false },
          false)) ∧
    (s.inCopy = false → s.pendSingle = false → s.pendDouble = true → c ≠ '"' →
      step s c p =
          stepNoPend { s with inDouble := false, pendDouble := false } c p ∧
        (step s c p).1.inDouble = false) := by
  refine ⟨?_, ?_, ?_, ?_⟩
  · intro hc hps
    simp [step, hc, hps]
  · intro hc hps hne
    have he : step s c p = stepP2 { s with inSingle := false, pendSingle := false } c p := by
      simp [step, hc, hps, hne]
    refine ⟨he, ?_⟩
    rw [he]
    exact stepP2_inSingle _ c p rfl hne
  · intro hc hps hpd
    simp [step, stepP2, hc, hps, hpd]
  · intro hc hps hpd hne
    have he : step s c p =
        stepNoPend { s with inDouble := false, pendDouble := false } c p := by
      simp [step, stepP2, hc, hps, hpd, hne]
    refine ⟨he, ?_⟩
    rw [he]
    exact stepNoPend_inDouble _ c p rfl hne

/-- Witness for C5: in single-quote mode with the pending flag set (the
state just after a quote character inside the region), a second quote
keeps the lexer quoted with both quotes buffered, and (for the closing
side) in double-quote pending state a `;` closes the double-quote mode. -/
theorem doubled_quote_escapes_wit :
    step { initS with
           statement := ['\''],
           inSingle := true,
           pendSingle := true } '\'' none =
      ({ initS with
         statement := ['\'', '\''],
         inSingle := true,
         pendSingle := false }, false) ∧
    (step { initS with
            statement := ['"', 'x', '"'],
            inDouble := true,
            pendDouble := true } ';' none).1.inDouble = false := by
  constructor
  · have h := (doubled_quote_escapes { initS with
      statement := ['\''], inSingle := true, pendSingle := true }
      ';' none).1 rfl rfl
    exact h.trans (by decide)
  · exact ((doubled_quote_escapes { initS with
      statement := ['"', 'x', '"'], inDouble := true, pendDouble := true }
      ';' none).2.2.2 rfl rfl rfl (by decide)).2

/-- The lexer is in plain scanning mode: no bulk-load passthrough, no
pending quote, no comment, no dollar quote or candidate, no quoted
region. -/
def normalMode (s : S) : Prop :=
  s.inCopy = false ∧ s.pendSingle = false ∧ s.pendDouble = false ∧
  s.inLine = false ∧ s.inBlock = false ∧ s.dollarTag = none ∧
  s.dollarCand = none ∧ s.inSingle = false ∧ s.inDouble = false

/-- Concatenate lines, terminating each with a newline. -/
def joinNL (ls : List (List Char)) : List Char :=
  ls.foldr (fun l acc => l ++ '\n' :: acc) []

/-- What the bulk-load relay does with one input line: drop it when blank
(after stripping trailing carriage returns), otherwise send it (followed
by a newline octet). -/
def lineEvent (l : List Char) : Option Emit :=
  if (trimChars (trimEndCR l)).isEmpty then none
  else some (Emit.copyLine (trimEndCR l))

/-- The sequence of wire events the relay produces for a list of data
lines: exactly the non-blank lines, in order, trailing carriage returns
stripped. -/
def sentOf (ls : List (List Char)) : List Emit := ls.filterMap lineEvent

/-- A data line: contains no newline and is not the sentinel. -/
def goodLine (l : List Char) : Prop :=
  (∀ c ∈ l, c ≠ '\n') ∧ trimEndCR l ≠ ['\\', '.']

instance (l : List Char) : Decidable (goodLine l) :=
  inferInstanceAs
    (Decidable ((∀ c ∈ l, c ≠ '\n') ∧ trimEndCR l ≠ ['\\', '.']))

theorem step_inCopy (s : S) (c : Char) (p : Option Char)
    (h : s.inCopy = true) : step s c p = (copyStep s c, false) := by
  simp [step, h]

theorem runFrom_cons (s : S) (c : Char) (rest : List Char)
    (h : (step s c rest.head?).2 = false) :
    runFrom s (c :: rest) = runFrom (step s c rest.head?).1 rest := by
  cases rest with
  | nil => simp [runFrom]
  | cons d t =>
      rcases hs : step s c (some d) with ⟨s1, b⟩
      simp only [List.head?] at h
      rw [hs] at h
      simp only at h
      subst h
      simp [runFrom, hs]

theorem copy_nl (s : S) (rest : List Char) (h : s.inCopy = true) :
    runFrom s ('\n' :: rest) = runFrom (copyStep s '\n') rest := by
  rw [runFrom_cons s '\n' rest (by rw [step_inCopy s '\n' _ h])]
  rw [step_inCopy s '\n' _ h]

theorem copy_chars (l : List Char) : ∀ (s : S) (rest : List Char),
    s.inCopy = true → (∀ c ∈ l, c ≠ '\n') →
    runFrom s (l ++ rest) = runFrom { s with copyBuf := s.copyBuf ++ l } rest := by
  induction l with
  | nil =>
      intro s rest h hl
      simp
  | cons c l' ih =>
      intro s rest h hl
      have hc : c ≠ '\n' := hl c (by simp)
      rw [List.cons_append]
      rw [runFrom_cons s c (l' ++ rest)
        (by rw [step_inCopy s c _ h])]
      rw [step_inCopy s c _ h]
      rw [show copyStep s c = { s with copyBuf := s.copyBuf ++ [c] } by
        simp [copyStep, hc]]
      rw [ih { s with copyBuf := s.copyBuf ++ [c] } rest h
        (fun x hx => hl x (by simp [hx]))]
      simp

/-- The bulk-load relay consumes a list of data lines terminated by the
sentinel line and returns to normal scanning having emitted exactly the
non-blank lines followed by the sink finalization. -/
theorem copy_relay_lines (ls : List (List Char)) : ∀ s : S,
    s.inCopy = true → s.copyBuf = [] → (∀ l ∈ ls, goodLine l) →
    runFrom s (joinNL ls ++ ['\\', '.', '\n']) =
      { s with inCopy := false, copyBuf := [],
               events := s.events ++ sentOf ls ++ [Emit.copyEnd] } := by
  induction ls with
  | nil =>
      intro s h hbuf _
      rw [show joinNL [] ++ ['\\', '.', '\n'] = ['\\', '.'] ++ ['\n'] from rfl]
      rw [copy_chars ['\\', '.'] s ['\n'] h (by decide)]
      rw [show (['\n'] : List Char) = '\n' :: [] from rfl]
      rw [copy_nl { s with copyBuf := s.copyBuf ++ ['\\', '.'] } [] h]
      rw [hbuf]
      simp [runFrom, copyStep, sentOf, trimEndCR]
  | cons l ls' ih =>
      intro s h hbuf hg
      have hline : goodLine l := hg l (by simp)
      rw [show joinNL (l :: ls') ++ ['\\', '.', '\n'] =
            l ++ ('\n' :: (joinNL ls' ++ ['\\', '.', '\n'])) by
        simp [joinNL]]
      rw [copy_chars l s _ h hline.1]
      rw [copy_nl { s with copyBuf := s.copyBuf ++ l } _ h]
      rw [hbuf]
      by_cases hblank : (trimChars (trimEndCR l)).isEmpty = true
      · rw [show copyStep { s with copyBuf := [] ++ l } '\n' =
              { s with copyBuf := [] } by
          simp [copyStep, hline.2, hblank]]
        have hs : ({ s with copyBuf := [] } : S) = s := by
          conv_lhs => rw [← hbuf]
        rw [hs]
        rw [ih s h hbuf (fun x hx => hg x (by simp [hx]))]
        have hev : sentOf (l :: ls') = sentOf ls' := by
          simp [sentOf, lineEvent, hblank]
        rw [hev]
      · rw [show copyStep { s with copyBuf := [] ++ l } '\n' =
              { s with copyBuf := [],
                       events := s.events ++ [Emit.copyLine (trimEndCR l)] } by
          simp [copyStep, hline.2, hblank]]
        rw [ih { s with copyBuf := [],
                        events := s.events ++ [Emit.copyLine (trimEndCR l)] }
          h rfl (fun x hx => hg x (by simp [hx]))]
        have hev : sentOf (l :: ls') =
            Emit.copyLine (trimEndCR l) :: sentOf ls' := by
          simp [sentOf, lineEvent, hblank]
        rw [hev]
        simp

/-- C4: when a completed statement's lowercased text begins with `copy`
and contains the `from stdin` clause, the `;` dispatch issues it to
`copy_in` and switches the lexer into line-buffered passthrough; from that
mode, a sequence of data lines followed by the sentinel line `\.` relays
exactly the non-blank lines to the wire sink (each recorded event is the
line, trailing carriage returns stripped, followed by a newline octet),
drops blank lines, finalizes the sink at the sentinel, and returns the
lexer to ordinary statement scanning with every other state component
unchanged. -/
theorem copy_passthrough :
    (∀ (s : S) (p : Option Char), normalMode s →
        trimChars s.statement ≠ [] → copyForm (trimChars s.statement) = true →
        step s ';' p =
          ({ s with statement := [], inCopy := true,
                    events := s.events ++ [Emit.copyStart (trimChars s.statement)],
                    topSemis := s.topSemis + 1, neSemis := s.neSemis + 1 },
            false)) ∧
    (∀ (s : S) (ls : List (List Char)), s.inCopy = true → s.copyBuf = [] →
        (∀ l ∈ ls, goodLine l) →
        runFrom s (joinNL ls ++ ['\\', '.', '\n']) =
          { s with inCopy := false, copyBuf := [],
                   events := s.events ++ sentOf ls ++ [Emit.copyEnd] }) := by
  constructor
  · intro s p hm ht hcf
    obtain ⟨hc, hps, hpd, hl, hb, hdt, hdc, hs, hd⟩ := hm
    simp [step, stepP2, stepNoPend, normalStep, hc, hps, hpd, hl, hb, hdt,
      hdc, hs, hd, ht, hcf]
  · exact fun s ls h hbuf hg => copy_relay_lines ls s h hbuf hg

/-- Witness for C4: the statement `copy t from stdin` triggers passthrough,
and from passthrough the lines `a<TAB>b`, a blank line, and `c` followed
by the sentinel emit exactly the two data lines and the finalization. -/
theorem copy_passthrough_wit :
    step { initS with statement := "copy t from stdin".toList } ';' none =
      ({ initS with
         statement := [],
         inCopy := true,
         events := [Emit.copyStart "copy t from stdin".toList],
         topSemis := 1,
         neSemis := 1 }, false) ∧
    runFrom { initS with inCopy := true }
        (joinNL ["a\tb".toList, [' '], "c\r".toList] ++ ['\\', '.', '\n']) =
      { initS with
        inCopy := false,
        events := [Emit.copyLine "a\tb".toList, Emit.copyLine ['c'],
          Emit.copyEnd] } := by
  constructor
  · have h := copy_passthrough.1 { initS with statement := "copy t from stdin".toList }
      none ⟨rfl, rfl, rfl, rfl, rfl, rfl, rfl, rfl, rfl⟩ (by decide) (by decide)
    exact h.trans (by decide)
  · have h := copy_passthrough.2 { initS with inCopy := true }
      ["a\tb".toList, [' '], "c\r".toList] rfl rfl (by decide)
    exact h.trans (by decide)

theorem finishRun_notCopy (s : S) (h : s.inCopy = false)
    (hcf : copyForm (trimChars s.statement) = false) :
    finishRun s = Except.ok (s.events ++
      (if trimChars s.statement = [] then []
       else [Emit.stmt (trimChars s.statement)])) := by
  by_cases ht : trimChars s.statement = []
  · simp [finishRun, h, ht]
  · simp [finishRun, h, ht, hcf]

theorem finishRun_copyErr (s : S) (h : s.inCopy = true)
    (hs : trimEndCR s.copyBuf ≠ ['\\', '.']) :
    finishRun s = Except.error "COPY data did not terminate" := by
  simp [finishRun, h, hs]

theorem copyForm_ne_nil {t : List Char} (h : copyForm t = true) : t ≠ [] := by
  intro he
  rw [he] at h
  exact absurd h (by decide)

theorem finishRun_trailingCopy (s : S) (h : s.inCopy = false)
    (hcf : copyForm (trimChars s.statement) = true) :
    finishRun s = Except.error "COPY statement missing data section" := by
  have ht : trimChars s.statement ≠ [] := copyForm_ne_nil hcf
  simp [finishRun, h, ht, hcf]

/-- C3 as stated is false for dollar quotes and block comments: an input
ending inside an unterminated dollar quote (`select $t$ ;`) or inside an
unterminated block comment (`select 1 /* x`) does not fail — the trailing
buffer is executed as a final statement. -/
theorem eof_claim_false :
    (runFrom initS "select $t$ ;".toList).dollarTag = some "$t$".toList ∧
    execFile "select $t$ ;".toList =
      Except.ok [Emit.stmt "select $t$ ;".toList] ∧
    (runFrom initS "select 1 /* x".toList).inBlock = true ∧
    execFile "select 1 /* x".toList =
      Except.ok [Emit.stmt "select 1".toList] :=
  ⟨rfl, rfl, rfl, rfl⟩

/-- C3 amended: an unterminated bulk-load data block at end-of-stream is a
fatal malformed-input error, and a trailing buffer that is itself a
bulk-load statement (its lowercased trim begins with `copy` and contains
`from stdin`) fails with the missing-data-section error — even when the
stream also ends inside an unterminated dollar quote or block comment.
In every other case — including an unterminated dollar quote or block
comment — the run succeeds and the non-empty trailing buffer (which
excludes comment text) is executed as a final statement. -/
theorem eof_handling (input : List Char) :
    ((runFrom initS input).inCopy = true →
      trimEndCR (runFrom initS input).copyBuf ≠ ['\\', '.'] →
      execFile input = Except.error "COPY data did not terminate") ∧
    ((runFrom initS input).inCopy = false →
      copyForm (trimChars (runFrom initS input).statement) = true →
      execFile input = Except.error "COPY statement missing data section") ∧
    ((runFrom initS input).inCopy = false →
      copyForm (trimChars (runFrom initS input).statement) = false →
      execFile input = Except.ok ((runFrom initS input).events ++
        (if trimChars (runFrom initS input).statement = [] then []
         else [Emit.stmt (trimChars (runFrom initS input).statement)]))) := by
  refine ⟨?_, ?_, ?_⟩
  · intro h hs
    unfold execFile
    exact finishRun_copyErr _ h hs
  · intro h hcf
    unfold execFile
    exact finishRun_trailingCopy _ h hcf
  · intro h hcf
    unfold execFile
    exact finishRun_notCopy _ h hcf

/-- Witness for C3's amended theorem: an unterminated dollar quote still
succeeds with the trailing statement executed; an unterminated COPY data
block fails with the did-not-terminate error; and a trailing bulk-load
statement left open inside an unterminated block comment fails with the
missing-data-section error. -/
theorem eof_handling_wit :
    execFile "select $t$ ;".toList =
      Except.ok [Emit.stmt "select $t$ ;".toList] ∧
    execFile "copy t from stdin;\nx".toList =
      Except.error "COPY data did not terminate" ∧
    execFile "copy t from stdin /* x".toList =
      Except.error "COPY statement missing data section" := by
  refine ⟨?_, ?_, ?_⟩
  · have h := (eof_handling "select $t$ ;".toList).2.2 rfl (by decide)
    exact h.trans (by rfl)
  · exact (eof_handling "copy t from stdin;\nx".toList).1 rfl (by decide)
  · exact (eof_handling "copy t from stdin /* x".toList).2.1 rfl (by decide)

theorem stmtCount_append (a b : List Emit) :
    stmtCount (a ++ b) = stmtCount a + stmtCount b := by
  simp [stmtCount, List.filter_append]

theorem stmtCount_stmt (t : List Char) : stmtCount [Emit.stmt t] = 1 := rfl

theorem normalStep_shape (s : S) (c : Char) (p : Option Char)
    (h : s.inCopy = false) :
    ((normalStep s c p).1.inCopy = true ∧
      ∃ tc, (normalStep s c p).1.events = s.events ++ [Emit.copyStart tc]) ∨
    ((normalStep s c p).1.inCopy = false ∧
      ∃ t, (normalStep s c p).1.events = s.events ++ t ∧
        stmtCount (normalStep s c p).1.events + s.neSemis =
          (normalStep s c p).1.neSemis + stmtCount s.events) := by
  rcases hr : normalStep s c p with ⟨s1, b⟩
  dsimp only
  unfold normalStep at hr
  dsimp only at hr
  repeat' split at hr
  all_goals injection hr with hr1 hr2
  all_goals subst hr1
  all_goals dsimp only
  all_goals first
    | exact Or.inl ⟨rfl, ⟨_, rfl⟩⟩
    | exact Or.inr ⟨h, ⟨[], by simp, by omega⟩⟩
    | exact Or.inr ⟨h, ⟨[Emit.stmt (trimChars s.statement)], rfl,
        by rw [stmtCount_append, stmtCount_stmt]; omega⟩⟩

theorem stepNoPend_shape (s : S) (c : Char) (p : Option Char)
    (h : s.inCopy = false) :
    ((stepNoPend s c p).1.inCopy = true ∧
      ∃ tc, (stepNoPend s c p).1.events = s.events ++ [Emit.copyStart tc]) ∨
    ((stepNoPend s c p).1.inCopy = false ∧
      ∃ t, (stepNoPend s c p).1.events = s.events ++ t ∧
        stmtCount (stepNoPend s c p).1.events + s.neSemis =
          (stepNoPend s c p).1.neSemis + stmtCount s.events) := by
  unfold stepNoPend
  by_cases hl : s.inLine = true
  · rw [if_pos hl]
    by_cases hn : c = '\n'
    · rw [if_pos hn]
      try dsimp only
      exact Or.inr ⟨h, ⟨[], by simp, by omega⟩⟩
    · rw [if_neg hn]
      try dsimp only
      exact Or.inr ⟨h, ⟨[], by simp, by omega⟩⟩
  · rw [if_neg hl]
    by_cases hb : s.inBlock = true
    · rw [if_pos hb]
      by_cases hbp : s.blockPrev = some '*' ∧ c = '/'
      · rw [if_pos hbp]
        try dsimp only
        exact Or.inr ⟨h, ⟨[], by simp, by omega⟩⟩
      · rw [if_neg hbp]
        try dsimp only
        exact Or.inr ⟨h, ⟨[], by simp, by omega⟩⟩
    · rw [if_neg hb]
      cases hdt : s.dollarTag with
      | some tag =>
          simp only [hdt]
          try dsimp only
          by_cases hx : c = '$' ∧ tag.isSuffixOf (s.statement ++ [c]) = true
          · rw [if_pos hx]
            try dsimp only
            exact Or.inr ⟨h, ⟨[], by simp, by omega⟩⟩
          · rw [if_neg hx]
            try dsimp only
            exact Or.inr ⟨h, ⟨[], by simp, by omega⟩⟩
      | none =>
          simp only [hdt]
          cases hdc : s.dollarCand with
          | some cand =>
              simp only [hdc]
              try dsimp only
              by_cases hx : c = '$'
              · rw [if_pos hx]
                try dsimp only
                exact Or.inr ⟨h, ⟨[], by simp, by omega⟩⟩
              · rw [if_neg hx]
                by_cases hy : c.isAlphanum = true ∨ c = '_'
                · rw [if_pos hy]
                  try dsimp only
                  exact Or.inr ⟨h, ⟨[], by simp, by omega⟩⟩
                · rw [if_neg hy]
                  try dsimp only
                  exact Or.inr ⟨h, ⟨[], by simp, by omega⟩⟩
          | none =>
              simp only [hdc]
              by_cases hs : s.inSingle = true
              · rw [if_pos hs]
                try dsimp only
                exact Or.inr ⟨h, ⟨[], by simp, by omega⟩⟩
              · rw [if_neg hs]
                by_cases hd : s.inDouble = true
                · rw [if_pos hd]
                  try dsimp only
                  exact Or.inr ⟨h, ⟨[], by simp, by omega⟩⟩
                · rw [if_neg hd]
                  exact normalStep_shape s c p h

theorem stepP2_shape (s : S) (c : Char) (p : Option Char)
    (h : s.inCopy = false) :
    ((stepP2 s c p).1.inCopy = true ∧
      ∃ tc, (stepP2 s c p).1.events = s.events ++ [Emit.copyStart tc]) ∨
    ((stepP2 s c p).1.inCopy = false ∧
      ∃ t, (stepP2 s c p).1.events = s.events ++ t ∧
        stmtCount (stepP2 s c p).1.events + s.neSemis =
          (stepP2 s c p).1.neSemis + stmtCount s.events) := by
  unfold stepP2
  by_cases hpd : s.pendDouble = true
  · rw [if_pos hpd]
    by_cases hq : c = '"'
    · rw [if_pos hq]
      try dsimp only
      exact Or.inr ⟨h, ⟨[], by simp, by omega⟩⟩
    · rw [if_neg hq]
      exact stepNoPend_shape { s with inDouble := false, pendDouble := false }
        c p h
  · rw [if_neg hpd]
    exact stepNoPend_shape s c p h

theorem step_shape (s : S) (c : Char) (p : Option Char)
    (h : s.inCopy = false) :
    ((step s c p).1.inCopy = true ∧
      ∃ tc, (step s c p).1.events = s.events ++ [Emit.copyStart tc]) ∨
    ((step s c p).1.inCopy = false ∧
      ∃ t, (step s c p).1.events = s.events ++ t ∧
        stmtCount (step s c p).1.events + s.neSemis =
          (step s c p).1.neSemis + stmtCount s.events) := by
  unfold step
  rw [if_neg (by simp [h] : ¬s.inCopy = true)]
  by_cases hps : s.pendSingle = true
  · rw [if_pos hps]
    by_cases hq : c = '\''
    · rw [if_pos hq]
      try dsimp only
      exact Or.inr ⟨h, ⟨[], by simp, by omega⟩⟩
    · rw [if_neg hq]
      exact stepP2_shape { s with inSingle := false, pendSingle := false } c p h
  · rw [if_neg hps]
    exact stepP2_shape s c p h

theorem copyStep_mono (s : S) (c : Char) :
    ∃ t, (copyStep s c).events = s.events ++ t := by
  unfold copyStep
  by_cases hn : c = '\n'
  · rw [if_pos hn]
    try dsimp only
    by_cases hsent : trimEndCR s.copyBuf = ['\\', '.']
    · rw [if_pos hsent]
      exact ⟨_, rfl⟩
    · rw [if_neg hsent]
      by_cases hblank : (trimChars (trimEndCR s.copyBuf)).isEmpty = true
      · rw [if_pos hblank]
        exact ⟨[], by simp⟩
      · rw [if_neg hblank]
        exact ⟨_, rfl⟩
  · rw [if_neg hn]
    exact ⟨[], by simp⟩

theorem step_mono (s : S) (c : Char) (p : Option Char) :
    ∃ t, (step s c p).1.events = s.events ++ t := by
  by_cases h : s.inCopy = true
  · rw [step_inCopy s c p h]
    exact copyStep_mono s c
  · have h' : s.inCopy = false := by simpa using h
    rcases step_shape s c p h' with ⟨_, tc, hev⟩ | ⟨_, t, hev, _⟩
    · exact ⟨_, hev⟩
    · exact ⟨t, hev⟩

theorem runFrom_mono : ∀ (s : S) (input : List Char),
    ∃ t, (runFrom s input).events = s.events ++ t
  | s, [] => ⟨[], by simp [runFrom]⟩
  | s, [c] => by
      rcases step_mono s c none with ⟨t, ht⟩
      exact ⟨t, by simpa [runFrom] using ht⟩
  | s, c :: d :: rest => by
      rcases hs : step s c (some d) with ⟨s1, b⟩
      have hmono := step_mono s c (some d)
      rw [hs] at hmono
      rcases hmono with ⟨t1, ht1⟩
      cases b with
      | true =>
          rcases runFrom_mono s1 rest with ⟨t2, ht2⟩
          refine ⟨t1 ++ t2, ?_⟩
          rw [show runFrom s (c :: d :: rest) = runFrom s1 rest by
            simp [runFrom, hs]]
          rw [ht2, ht1]
          simp
      | false =>
          rcases runFrom_mono s1 (d :: rest) with ⟨t2, ht2⟩
          refine ⟨t1 ++ t2, ?_⟩
          rw [show runFrom s (c :: d :: rest) = runFrom s1 (d :: rest) by
            simp [runFrom, hs]]
          rw [ht2, ht1]
          simp

/-- The counting invariant of the scanner: as long as no bulk-load
statement is ever emitted, the lexer stays out of bulk-load mode and the
number of statements handed to execution grows in lockstep with the ghost
count of top-level semicolons whose pending trimmed text was non-empty. -/
theorem run_inv : ∀ (s : S) (input : List Char), s.inCopy = false →
    (∀ t, Emit.copyStart t ∉ (runFrom s input).events) →
    (runFrom s input).inCopy = false ∧
    stmtCount (runFrom s input).events + s.neSemis =
      (runFrom s input).neSemis + stmtCount s.events
  | s, [] => by
      intro h _
      refine ⟨h, ?_⟩
      show stmtCount s.events + s.neSemis = s.neSemis + stmtCount s.events
      omega
  | s, [c] => by
      intro h hnc
      have hr : runFrom s [c] = (step s c none).1 := rfl
      rcases step_shape s c none h with ⟨hin, tc, hev⟩ | ⟨hin, t, hev, hcount⟩
      · exfalso
        apply hnc tc
        rw [hr, hev]
        simp
      · constructor
        · rw [hr]; exact hin
        · rw [hr]; exact hcount
  | s, c :: d :: rest => by
      intro h hnc
      rcases hs : step s c (some d) with ⟨s1, b⟩
      have hshape := step_shape s c (some d) h
      rw [hs] at hshape
      dsimp only at hshape
      cases b with
      | true =>
          have hrun : runFrom s (c :: d :: rest) = runFrom s1 rest := by
            simp [runFrom, hs]
          rcases hshape with ⟨hin, tc, hev⟩ | ⟨hin, t1, hev, hcount⟩
          · exfalso
            rcases runFrom_mono s1 rest with ⟨t2, ht2⟩
            apply hnc tc
            rw [hrun, ht2, hev]
            simp
          · have ih := run_inv s1 rest hin (by rw [← hrun]; exact hnc)
            refine ⟨by rw [hrun]; exact ih.1, ?_⟩
            rw [hrun]
            have h2 := ih.2
            omega
      | false =>
          have hrun : runFrom s (c :: d :: rest) = runFrom s1 (d :: rest) := by
            simp [runFrom, hs]
          rcases hshape with ⟨hin, tc, hev⟩ | ⟨hin, t1, hev, hcount⟩
          · exfalso
            rcases runFrom_mono s1 (d :: rest) with ⟨t2, ht2⟩
            apply hnc tc
            rw [hrun, ht2, hev]
            simp
          · have ih := run_inv s1 (d :: rest) hin (by rw [← hrun]; exact hnc)
            refine ⟨by rw [hrun]; exact ih.1, ?_⟩
            rw [hrun]
            have h2 := ih.2
            omega

/-- C1 as stated is false: on the input `;` there is one top-level
semicolon outside every quote, comment and dollar-quote region, the
stream ends balanced in normal mode with an empty trailing buffer and no
bulk-load statement — yet zero statements are handed to execution,
because a semicolon whose accumulated text trims to empty emits nothing. -/
theorem statement_count_claim_false :
    normalMode (runFrom initS [';']) ∧
    execFile [';'] = Except.ok [] ∧
    (runFrom initS [';']).topSemis = 1 ∧
    trimChars (runFrom initS [';']).statement = [] ∧
    stmtCount [] ≠ (runFrom initS [';']).topSemis +
      (if trimChars (runFrom initS [';']).statement = [] then 0 else 1) := by
  refine ⟨⟨rfl, rfl, rfl, rfl, rfl, rfl, rfl, rfl, rfl⟩, rfl, rfl, rfl,
    by decide⟩

/-- C1 amended: for every input that never triggers a bulk-load statement
(no `copy ... from stdin` emission, and the trailing text is not one), the
run succeeds and the number of statements handed to execution equals the
number of top-level semicolons whose accumulated trimmed text was
non-empty, plus one if non-empty trailing text remains at end of
stream. -/
theorem statement_count (input : List Char)
    (hnc : ∀ t, Emit.copyStart t ∉ (runFrom initS input).events)
    (hcf : copyForm (trimChars (runFrom initS input).statement) = false) :
    execFile input = Except.ok ((runFrom initS input).events ++
      (if trimChars (runFrom initS input).statement = [] then []
       else [Emit.stmt (trimChars (runFrom initS input).statement)])) ∧
    stmtCount ((runFrom initS input).events ++
      (if trimChars (runFrom initS input).statement = [] then []
       else [Emit.stmt (trimChars (runFrom initS input).statement)])) =
      (runFrom initS input).neSemis +
        (if trimChars (runFrom initS input).statement = [] then 0 else 1) := by
  have hinv := run_inv initS input rfl hnc
  constructor
  · unfold execFile
    exact finishRun_notCopy _ hinv.1 hcf
  · rw [stmtCount_append]
    have h2 := hinv.2
    have h0 : stmtCount (initS : S).events = 0 := rfl
    have hn : (initS : S).neSemis = 0 := rfl
    rw [h0, hn] at h2
    by_cases ht : trimChars (runFrom initS input).statement = []
    · rw [if_pos ht, if_pos ht]
      have : stmtCount ([] : List Emit) = 0 := rfl
      omega
    · rw [if_neg ht, if_neg ht, stmtCount_stmt]
      omega

/-- Witness for C1's amended theorem: `a;;b` has two top-level semicolons,
one of which closes a non-empty statement, plus non-empty trailing text —
two statements are executed. -/
theorem statement_count_wit :
    execFile "a;;b".toList = Except.ok [Emit.stmt ['a'], Emit.stmt ['b']] ∧
    stmtCount [Emit.stmt ['a'], Emit.stmt ['b']] =
      (runFrom initS "a;;b".toList).neSemis + 1 := by
  have h := statement_count "a;;b".toList
    (by
      intro t ht
      rw [show (runFrom initS "a;;b".toList).events = [Emit.stmt ['a']]
        from rfl] at ht
      simp at ht)
    (by decide)
  constructor
  · exact h.1.trans (by rfl)
  · have h2 := h.2
    rw [show (if trimChars (runFrom initS "a;;b".toList).statement = []
        then (0 : Nat) else 1) = 1 from rfl] at h2
    rw [← h2]
    decide

/-- C6: `execute_query` classifies the statement by stripping leading
comments and whitespace, lowercasing, and testing the leading keyword:
when it begins with `select`, `with`, `show` or `explain` the statement is
executed as a query and an ordered row sequence is returned; otherwise it
is executed as a command and only an affected-row count is returned — in
both the schema-scoped transaction branch and the plain branch, whenever
the underlying calls succeed. -/
theorem classify_dispatch {ρ : Type} (tokens : List (String × Nat))
    (conn : DbConn ρ) (sql : List Char) (queryId : Option String)
    (schema : Option (List Char)) (rows : List ρ) (n : Nat)
    (hb : conn.txBeginRes = Except.ok ())
    (hp : conn.setPathRes = Except.ok ())
    (hc : conn.commitRes = Except.ok ())
    (hq : conn.queryRes = Except.ok rows)
    (he : conn.execRes = Except.ok n) :
    (executeQueryModel tokens conn sql queryId schema).1 =
      Except.ok (if isQueryStmt sql then QueryExecutionResult.rows rows
                 else QueryExecutionResult.affected n) := by
  have hr : runStatement conn sql schema =
      Except.ok (if isQueryStmt sql then QueryExecutionResult.rows rows
                 else QueryExecutionResult.affected n) := by
    unfold runStatement
    cases schema with
    | none =>
        by_cases hic : isQueryStmt sql = true
        · simp [hic, hq]
        · simp [hic, he]
    | some sc =>
        by_cases hic : isQueryStmt sql = true
        · simp [hic, hb, hp, hq, hc]
        · simp [hic, hb, hp, he, hc]
  simp [executeQueryModel, hr]

/-- Witness for C6: a concrete query statement (with a leading comment)
returns rows and a concrete command statement returns an affected count. -/
theorem classify_dispatch_wit :
    (executeQueryModel [] (⟨Except.ok (), Except.ok (), Except.ok [(1 : Nat)],
        Except.ok 5, Except.ok (), 7⟩ : DbConn Nat)
      "-- c\nselect 1".toList none none).1 =
        Except.ok (QueryExecutionResult.rows [1]) ∧
    (executeQueryModel [] (⟨Except.ok (), Except.ok (), Except.ok [(1 : Nat)],
        Except.ok 5, Except.ok (), 7⟩ : DbConn Nat)
      "insert into t values (1)".toList (some "q") (some "s".toList)).1 =
        Except.ok (QueryExecutionResult.affected 5) := by
  constructor
  · have h := classify_dispatch [] (⟨Except.ok (), Except.ok (),
      Except.ok [(1 : Nat)], Except.ok 5, Except.ok (), 7⟩ : DbConn Nat)
      "-- c\nselect 1".toList none none [(1 : Nat)] 5 rfl rfl rfl rfl rfl
    rw [h]
    rfl
  · have h := classify_dispatch [] (⟨Except.ok (), Except.ok (),
      Except.ok [(1 : Nat)], Except.ok 5, Except.ok (), 7⟩ : DbConn Nat)
      "insert into t values (1)".toList (some "q") (some "s".toList)
      [(1 : Nat)] 5 rfl rfl rfl rfl rfl
    rw [h]
    rfl

/-- C7 as stated is false on the failure path: when the statement fails,
`execute_query` returns through the `?` operator before the token-removal
code runs, so the cancellation handle stays registered after the failure.
Concretely, a failing command executed with query id `"q"` leaves
`[("q", 7)]` in the token registry. -/
theorem cancel_claim_false :
    (executeQueryModel [] (⟨Except.ok (), Except.ok (), Except.ok [],
        Except.error "boom", Except.ok (), 7⟩ : DbConn Nat)
      "insert into t values (1)".toList (some "q") none).1 =
        Except.error "boom" ∧
    (executeQueryModel [] (⟨Except.ok (), Except.ok (), Except.ok [],
        Except.error "boom", Except.ok (), 7⟩ : DbConn Nat)
      "insert into t values (1)".toList (some "q") none).2 = [("q", 7)] :=
  ⟨rfl, rfl⟩

/-- C7 amended: cancelling an execution id with no registered in-flight
statement fails with the no-such-execution error; the cancellation handle
is inserted into the registry immediately before the statement is issued,
and it is removed immediately after the statement completes successfully —
but when the statement fails, the handle remains registered (the removal
is skipped by the early return). -/
theorem cancel_registry (ρ : Type) :
    (∀ (tokens : List (String × Nat)) (id : String),
        lookupA tokens id = none →
        cancelQueryModel tokens id =
          Except.error "No running query for this id") ∧
    (∀ (tokens : List (String × Nat)) (conn : DbConn ρ) (sql : List Char)
        (id : String) (schema : Option (List Char))
        (v : QueryExecutionResult ρ),
        (executeQueryModel tokens conn sql (some id) schema).1 = Except.ok v →
        (executeQueryModel tokens conn sql (some id) schema).2 =
          eraseA (insertA tokens id conn.token) id) ∧
    (∀ (tokens : List (String × Nat)) (conn : DbConn ρ) (sql : List Char)
        (id : String) (schema : Option (List Char)) (e : String),
        (executeQueryModel tokens conn sql (some id) schema).1 =
          Except.error e →
        (executeQueryModel tokens conn sql (some id) schema).2 =
          insertA tokens id conn.token) := by
  refine ⟨?_, ?_, ?_⟩
  · intro tokens id h
    unfold cancelQueryModel
    rw [h]
  · intro tokens conn sql id schema v h
    cases hr : runStatement conn sql schema with
    | ok w => simp [executeQueryModel, hr]
    | error e =>
        have h1 : (executeQueryModel tokens conn sql (some id) schema).1 =
            Except.error e := by simp [executeQueryModel, hr]
        rw [h1] at h
        cases h
  · intro tokens conn sql id schema e h
    cases hr : runStatement conn sql schema with
    | ok w =>
        have h1 : (executeQueryModel tokens conn sql (some id) schema).1 =
            Except.ok w := by simp [executeQueryModel, hr]
        rw [h1] at h
        cases h
    | error e' => simp [executeQueryModel, hr]

/-- Witness for C7's amended theorem: an unknown id fails to cancel, a
successful statement ends with the handle removed, a failing statement
ends with the handle still registered. -/
theorem cancel_registry_wit :
    cancelQueryModel [] "x" = Except.error "No running query for this id" ∧
    (executeQueryModel [] (⟨Except.ok (), Except.ok (), Except.ok [(1 : Nat)],
        Except.ok 5, Except.ok (), 7⟩ : DbConn Nat)
      "select 1".toList (some "q") none).2 = eraseA (insertA [] "q" 7) "q" ∧
    (executeQueryModel [] (⟨Except.ok (), Except.ok (), Except.ok [],
        Except.error "boom", Except.ok (), 7⟩ : DbConn Nat)
      "delete from t".toList (some "q") none).2 = insertA [] "q" 7 :=
  ⟨(cancel_registry Nat).1 [] "x" rfl,
   (cancel_registry Nat).2.1 [] _ "select 1".toList "q" none
     (QueryExecutionResult.rows [1]) rfl,
   (cancel_registry Nat).2.2 [] _ "delete from t".toList "q" none "boom" rfl⟩

/-- C9 as stated is false: a fully idle pool whose idle count is below the
configured maximum survives the sweep.  Concretely a pool with 3
connections, all 3 checked in (none outstanding), maximum 10, passes the
retention test `size > 0 && available < max_size` and is kept. -/
theorem cleanup_claim_false :
    wfStatus ⟨3, 3, 10⟩ ∧ fullyIdle ⟨3, 3, 10⟩ ∧
    cleanupIdlePools [("a", ⟨3, 3, 10⟩)] = [("a", ⟨3, 3, 10⟩)] := by
  refine ⟨⟨by decide, by decide⟩, rfl, by decide⟩

/-- C9 amended: the sweep never evicts a pool with a connection checked
out, and every pool it evicts is fully idle; but it does not evict every
fully idle pool — it drops exactly those that are empty or whose idle
count has reached the configured maximum. -/
theorem cleanup_amended (pools : List (String × PoolStatus))
    (e : String × PoolStatus) (hwf : wfStatus e.2) (he : e ∈ pools) :
    (inUsePool e.2 → e ∈ cleanupIdlePools pools) ∧
    (e ∉ cleanupIdlePools pools → fullyIdle e.2) := by
  obtain ⟨h1, h2⟩ := hwf
  constructor
  · intro hu
    unfold inUsePool at hu
    have hr : retainPool e.2 = true := by
      simp only [retainPool, Bool.and_eq_true, decide_eq_true_eq]
      exact ⟨by omega, by omega⟩
    exact List.mem_filter.mpr ⟨he, hr⟩
  · intro hn
    have hr : ¬retainPool e.2 = true := fun hr => hn (List.mem_filter.mpr ⟨he, hr⟩)
    simp only [retainPool, Bool.and_eq_true, decide_eq_true_eq, not_and, not_lt] at hr
    unfold fullyIdle
    by_cases hz : 0 < e.2.size
    · have := hr hz; omega
    · omega

/-- Witness for C9's amended theorem: an in-use pool (one of two
connections checked out) survives the sweep. -/
theorem cleanup_amended_wit :
    ("a", (⟨2, 1, 5⟩ : PoolStatus)) ∈
      cleanupIdlePools [("a", ⟨2, 1, 5⟩)] ∧
    fullyIdle (⟨0, 0, 5⟩ : PoolStatus) :=
  ⟨(cleanup_amended [("a", ⟨2, 1, 5⟩)] ("a", ⟨2, 1, 5⟩)
      ⟨by decide, by decide⟩ (by simp)).1 (by simp [inUsePool]),
   (cleanup_amended [("b", ⟨0, 0, 5⟩)] ("b", ⟨0, 0, 5⟩)
      ⟨by decide, by decide⟩ (by simp)).2 (by decide)⟩

end Fastdb
